import Mathlib

/-!
Verification development for the ECE322 scripts repository.

Part A embeds `scripts/mc_dc_solver.py` (class `MCDCSolver`): expression
normalization, variable extraction, truth-table generation, MC/DC pair
analysis and the minimal-suite heuristic.  The Python object's mutable
fields (`truth_table`, `mcdc_pairs`) are modelled by explicit state
passing: each method takes a solver state and returns the updated state
together with its return value.

Part B embeds the set-cover portion of `scripts/vector_toolkit_cli.py`
(`exact_min_set_cover`, `greedy_set_cover`) over binary coverage
matrices represented as lists of boolean rows.
-/

set_option maxRecDepth 10000

/-! ## Part A: the MC/DC solver (scripts/mc_dc_solver.py) -/

/-- A word character in the sense of the regex `\b[a-z]\b` used by
`_extract_variables`: ASCII letters, digits, and underscore delimit
word boundaries. -/
def wordChar (c : Char) : Bool :=
  c.isAlphanum || c = '_'

/-- Splits a character list into its maximal runs of word characters,
dropping everything between runs.  A single-character run of a lowercase
letter is exactly a match of the regex `\b[a-z]\b`. -/
def wordRunsGo : List Char → List Char → List (List Char)
  | acc, [] => if acc = [] then [] else [acc.reverse]
  | acc, c :: cs =>
    if wordChar c then wordRunsGo (c :: acc) cs
    else if acc = [] then wordRunsGo [] cs
    else acc.reverse :: wordRunsGo [] cs

def wordRuns (l : List Char) : List (List Char) :=
  wordRunsGo [] l

/-- Left-to-right, non-overlapping replacement of a (nonempty) pattern,
the semantics of Python's `str.replace`.  The fuel argument is the
length of the scanned list, which always suffices. -/
def replaceAllGo (pat rep : List Char) : Nat → List Char → List Char
  | 0, l => l
  | f + 1, l =>
    match l with
    | [] => []
    | c :: cs =>
      if pat.isPrefixOf l then rep ++ replaceAllGo pat rep f (l.drop pat.length)
      else c :: replaceAllGo pat rep f cs

def replaceList (l pat rep : List Char) : List Char :=
  replaceAllGo pat rep l.length l

/-- Embeds `MCDCSolver._normalize_expression`: textual replacement of
the C-style operators by Python keywords. -/
def normalizeExpression (expr : String) : String :=
  String.mk
    (replaceList
      (replaceList (replaceList expr.toList "&&".toList " and ".toList)
        "||".toList " or ".toList)
      "!".toList " not ".toList)

/-- Embeds `MCDCSolver._extract_variables`: all single lowercase letters
of the (normalized) expression, de-duplicated and sorted, mirroring
`sorted(list(set(re.findall(r'\b[a-z]\b', self.expression))))`. -/
def extractVariables (s : String) : List Char :=
  List.insertionSort (· ≤ ·)
    ((wordRuns s.toList).filterMap fun run =>
      match run with
      | [c] => if c.isLower then some c else none
      | _ => none).dedup

/-- Tokens of the normalized boolean expression grammar accepted by the
restricted `eval` call in `generate_truth_table`. -/
inductive Tok where
  | lparen
  | rparen
  | andK
  | orK
  | notK
  | var (c : Char)
deriving Repr, DecidableEq

/-- Classifies one maximal word run as a token: the keywords `and`,
`or`, `not`, or a single lowercase variable name.  Any other word (a
multi-character identifier, an uppercase letter, a digit run) is not a
recognized token and evaluation of it is modelled as failing. -/
def keywordTok (run : List Char) : Option Tok :=
  if run = ['a', 'n', 'd'] then some Tok.andK
  else if run = ['o', 'r'] then some Tok.orK
  else if run = ['n', 'o', 't'] then some Tok.notK
  else
    match run with
    | [c] => if c.isLower then some (Tok.var c) else none
    | _ => none

/-- Tokenizer for normalized expressions.  The first argument is the
reversed accumulator of the word run currently being read.  Parentheses
and whitespace separate runs; any other non-word character makes the
whole expression unevaluable (`none`). -/
def tokenizeGo : List Char → List Char → Option (List Tok)
  | acc, [] =>
    if acc = [] then some [] else (keywordTok acc.reverse).map ([·])
  | acc, c :: cs =>
    if wordChar c then tokenizeGo (c :: acc) cs
    else
      let rest : Option (List Tok) :=
        if c = '(' then (tokenizeGo [] cs).map (Tok.lparen :: ·)
        else if c = ')' then (tokenizeGo [] cs).map (Tok.rparen :: ·)
        else if c.isWhitespace then tokenizeGo [] cs
        else none
      if acc = [] then rest
      else
        match keywordTok acc.reverse with
        | none => none
        | some tk => rest.map (tk :: ·)

def tokenize (l : List Char) : Option (List Tok) :=
  tokenizeGo [] l

/-- Parser modes for the three precedence levels of the Python grammar
(`or` binds loosest, then `and`, then `not`). -/
inductive PMode where
  | orM
  | andM
  | notM
deriving Repr, DecidableEq

/-- Recursive-descent parser-evaluator over the token list, with
explicit fuel for structural termination.  It models evaluation of the
normalized expression by Python's `eval` restricted to the documented
grammar (single lowercase variables, `and`, `or`, `not`, parentheses):
variables are resolved in the given environment, an unresolvable name or
a malformed expression yields `none` (which `generate_truth_table`
catches). -/
def parseExpr (env : List (Char × Bool)) : Nat → PMode → List Tok → Option (Bool × List Tok)
  | 0, _, _ => none
  | f + 1, PMode.orM, ts =>
    match parseExpr env f PMode.andM ts with
    | none => none
    | some (v, ts') =>
      match ts' with
      | Tok.orK :: rest =>
        match parseExpr env f PMode.orM rest with
        | none => none
        | some (w, ts'') => some (v || w, ts'')
      | _ => some (v, ts')
  | f + 1, PMode.andM, ts =>
    match parseExpr env f PMode.notM ts with
    | none => none
    | some (v, ts') =>
      match ts' with
      | Tok.andK :: rest =>
        match parseExpr env f PMode.andM rest with
        | none => none
        | some (w, ts'') => some (v && w, ts'')
      | _ => some (v, ts')
  | f + 1, PMode.notM, ts =>
    match ts with
    | Tok.notK :: rest =>
      match parseExpr env f PMode.notM rest with
      | none => none
      | some (v, ts') => some (!v, ts')
    | Tok.var c :: rest =>
      match env.lookup c with
      | none => none
      | some b => some (b, rest)
    | Tok.lparen :: rest =>
      match parseExpr env f PMode.orM rest with
      | none => none
      | some (v, ts') =>
        match ts' with
        | Tok.rparen :: ts'' => some (v, ts'')
        | _ => none
    | _ => none

/-- Models the guarded evaluation
`eval(self.expression, {"__builtins__": None}, var_values)` inside
`generate_truth_table`: a successful parse of the whole token stream
yields the boolean value, and any failure (caught by the surrounding
`try`/`except`) yields `none`. -/
def evalPyBool (expr : String) (env : List (Char × Bool)) : Option Bool :=
  match tokenize expr.toList with
  | none => none
  | some ts =>
    match parseExpr env (3 * ts.length + 3) PMode.orM ts with
    | some (v, []) => some v
    | _ => none

/-- One row of the truth table: the 1-based test number, the variable
values in the order of the solver's sorted variable list, and the
evaluation result (`none` when evaluation failed). -/
structure Row where
  test_num : Nat
  values : List Bool
  result : Option Bool
deriving Repr, DecidableEq, Inhabited

/-- Embedding of the `MCDCSolver` object state. -/
structure MCDCSolver where
  original_expression : String
  expression : String
  vars : List Char
  truth_table : List Row
  mcdc_pairs : List (Char × List (Nat × Nat))
deriving Repr, DecidableEq

/-- Embeds `MCDCSolver.__init__`: normalize the expression, extract the
variables, and start with an empty truth table and empty pairs map. -/
def MCDCSolver.init (expression : String) : MCDCSolver :=
  ⟨expression, normalizeExpression expression,
    extractVariables (normalizeExpression expression), [], []⟩

/-- All assignments enumerated by
`itertools.product([False, True], repeat=n)`: the first variable varies
slowest (most significant), the last varies fastest. -/
def allCombos : Nat → List (List Bool)
  | 0 => [[]]
  | n + 1 => [false, true].flatMap fun b => (allCombos n).map (b :: ·)

/-- Builds the rows appended by the `for test_num, combination in
enumerate(..., start=1)` loop, starting at the given test number. -/
def rowsFrom (expr : String) (vars : List Char) : Nat → List (List Bool) → List Row
  | _, [] => []
  | k, c :: cs =>
    ⟨k, c, evalPyBool expr (vars.zip c)⟩ :: rowsFrom expr vars (k + 1) cs

/-- Embeds `MCDCSolver.generate_truth_table`.  Note that the method
appends the freshly generated rows to the stored `self.truth_table`
without clearing it, and returns the whole stored list. -/
def MCDCSolver.generate_truth_table (s : MCDCSolver) : MCDCSolver × List Row :=
  let rows := rowsFrom s.expression s.vars 1 (allCombos s.vars.length)
  let tt := s.truth_table ++ rows
  (⟨s.original_expression, s.expression, s.vars, tt, s.mcdc_pairs⟩, tt)

/-- The value of variable `v` in a row, as looked up through the dict
`dict(zip(self.variables, combination))`; since the extracted variable
list is duplicate-free, dict lookup coincides with positional lookup. -/
def rowVal (vars : List Char) (r : Row) (v : Char) : Bool :=
  r.values.getD (vars.indexOf v) false

/-- The three conditions checked in the inner loop of `find_mcdc_pairs`:
all other variables agree, the target variable flips, and the result
changes. -/
def mcdcMatch (vars : List Char) (v : Char) (r1 r2 : Row) : Bool :=
  (vars.all fun w => if w = v then true else rowVal vars r1 w == rowVal vars r2 w)
    && (rowVal vars r1 v != rowVal vars r2 v)
    && (r1.result != r2.result)

/-- The pair list computed for one variable by the double loop of
`find_mcdc_pairs`: every position pair `i < j` whose rows match, as the
pair of their stored test numbers, in loop order. -/
def pairsFor (vars : List Char) (table : List Row) (v : Char) : List (Nat × Nat) :=
  (List.range table.length).flatMap fun i =>
    (List.range table.length).filterMap fun j =>
      if i < j ∧ mcdcMatch vars v (table.getD i default) (table.getD j default) then
        some ((table.getD i default).test_num, (table.getD j default).test_num)
      else none

/-- Embeds `MCDCSolver.find_mcdc_pairs`: generate the truth table first
when it is still empty, then record the complete pair list for every
variable. -/
def MCDCSolver.find_mcdc_pairs (s : MCDCSolver) :
    MCDCSolver × List (Char × List (Nat × Nat)) :=
  let s1 := if s.truth_table = [] then s.generate_truth_table.1 else s
  let pm := s1.vars.map fun v => (v, pairsFor s1.vars s1.truth_table v)
  (⟨s1.original_expression, s1.expression, s1.vars, s1.truth_table, pm⟩, pm)

/-- One step of the suite-collection loop in `get_minimal_test_suite`:
when the variable has at least one pair, add both test numbers of its
first pair to the running set. -/
def suiteStep (acc : Finset Nat) (e : Char × List (Nat × Nat)) : Finset Nat :=
  match e.2 with
  | [] => acc
  | p :: _ => insert p.1 (insert p.2 acc)

/-- The running set built by `get_minimal_test_suite`: for each variable
with at least one pair, both test numbers of its first pair. -/
def minimalSuiteOf (pm : List (Char × List (Nat × Nat))) : Finset Nat :=
  pm.foldl suiteStep ∅

/-- Embeds `MCDCSolver.get_minimal_test_suite`: compute the pairs map
first when it is still empty, then collect the first pair of every
covered variable. -/
def MCDCSolver.get_minimal_test_suite (s : MCDCSolver) : MCDCSolver × Finset Nat :=
  let s1 := if s.mcdc_pairs = [] then s.find_mcdc_pairs.1 else s
  (s1, minimalSuiteOf s1.mcdc_pairs)

/-- Spec-side description of the row ordering: the assignment of row
index `k` (0-based) is the `n`-bit big-endian binary representation of
`k`, so the first variable is the most significant bit and the last
variable varies fastest. -/
def bigEndianBits : Nat → Nat → List Bool
  | 0, _ => []
  | n + 1, k => decide (2 ^ n ≤ k) :: bigEndianBits n (k % 2 ^ n)

/-! ### Basic lemmas about the generated table -/

theorem allCombos_succ (n : Nat) :
    allCombos (n + 1)
      = (allCombos n).map (false :: ·) ++ (allCombos n).map (true :: ·) := by
  simp [allCombos, List.flatMap]

theorem allCombos_length (n : Nat) : (allCombos n).length = 2 ^ n := by
  induction n with
  | zero => rfl
  | succ n ih => simp [allCombos_succ, ih, pow_succ, Nat.mul_two]

theorem allCombos_nodup (n : Nat) : (allCombos n).Nodup := by
  induction n with
  | zero => simp [allCombos]
  | succ n ih =>
    rw [allCombos_succ]
    refine List.Nodup.append ?_ ?_ ?_
    · exact ih.map fun a b h => by simpa using h
    · exact ih.map fun a b h => by simpa using h
    · intro x hx hy
      rcases List.mem_map.1 hx with ⟨a, _, rfl⟩
      rcases List.mem_map.1 hy with ⟨b, _, h⟩
      simp at h

theorem allCombos_mem_length {n : Nat} {c : List Bool} (h : c ∈ allCombos n) :
    c.length = n := by
  induction n generalizing c with
  | zero => simp [allCombos] at h; simp [h]
  | succ n ih =>
    rw [allCombos_succ, List.mem_append] at h
    rcases h with h | h <;> rcases List.mem_map.1 h with ⟨a, ha, rfl⟩ <;>
      simp [ih ha]

theorem allCombos_getElem? {n k : Nat} (hk : k < 2 ^ n) :
    (allCombos n)[k]? = some (bigEndianBits n k) := by
  induction n generalizing k with
  | zero =>
    have : k = 0 := by omega
    subst this; rfl
  | succ n ih =>
    rw [allCombos_succ]
    by_cases h : k < 2 ^ n
    · have hlt : k < ((allCombos n).map (false :: ·)).length := by
        simpa [allCombos_length] using h
      rw [List.getElem?_append, if_pos hlt, List.getElem?_map, ih h]
      have hle : ¬ 2 ^ n ≤ k := by omega
      simp [bigEndianBits, hle, Nat.mod_eq_of_lt h]
    · have h2 : 2 ^ n ≤ k := Nat.le_of_not_lt h
      have hge : ((allCombos n).map (false :: ·)).length ≤ k := by
        simpa [allCombos_length] using h2
      rw [List.getElem?_append, if_neg (by omega), List.getElem?_map]
      have hsub : k - ((allCombos n).map (false :: ·)).length = k - 2 ^ n := by
        simp [allCombos_length]
      rw [hsub, ih (by have := Nat.pow_succ 2 n; omega)]
      have hmod : k % 2 ^ n = k - 2 ^ n := by
        rw [Nat.mod_eq_sub_mod h2, Nat.mod_eq_of_lt]
        have := Nat.pow_succ 2 n
        omega
      simp [bigEndianBits, h2, hmod]

theorem allCombos_getElem {n k : Nat} (hk : k < (allCombos n).length) :
    (allCombos n)[k] = bigEndianBits n k := by
  have h2 : k < 2 ^ n := by simpa [allCombos_length] using hk
  have := allCombos_getElem? h2
  rw [List.getElem?_eq_getElem hk] at this
  exact Option.some_injective _ this

theorem rowsFrom_length (expr : String) (vars : List Char) (k : Nat)
    (cs : List (List Bool)) : (rowsFrom expr vars k cs).length = cs.length := by
  induction cs generalizing k with
  | nil => rfl
  | cons c cs ih => simp [rowsFrom, ih]

theorem rowsFrom_getElem (expr : String) (vars : List Char) (k p : Nat)
    (cs : List (List Bool)) (hp : p < cs.length)
    (hp' : p < (rowsFrom expr vars k cs).length) :
    (rowsFrom expr vars k cs)[p]
      = ⟨k + p, cs[p], evalPyBool expr (vars.zip cs[p])⟩ := by
  induction cs generalizing k p with
  | nil => simp at hp
  | cons c cs ih =>
    cases p with
    | zero => simp [rowsFrom]
    | succ p =>
      have : p < cs.length := by simpa using hp
      simp only [rowsFrom, List.getElem_cons_succ]
      rw [ih (k + 1) p this]
      simp [Nat.add_assoc, Nat.add_comm 1 p]

theorem rowsFrom_map_values (expr : String) (vars : List Char) (k : Nat)
    (cs : List (List Bool)) : (rowsFrom expr vars k cs).map Row.values = cs := by
  induction cs generalizing k with
  | nil => rfl
  | cons c cs ih => simp [rowsFrom, ih]

/-- The table returned by a first call to `generate_truth_table` on a
fresh solver. -/
theorem init_generate_table (e : String) :
    (MCDCSolver.init e).generate_truth_table.2
      = rowsFrom (normalizeExpression e) (extractVariables (normalizeExpression e)) 1
          (allCombos (extractVariables (normalizeExpression e)).length) := by
  simp [MCDCSolver.init, MCDCSolver.generate_truth_table]

theorem extractVariables_sorted (s : String) :
    List.Sorted (· ≤ ·) (extractVariables s) :=
  List.sorted_insertionSort _ _

theorem extractVariables_nodup (s : String) : (extractVariables s).Nodup :=
  (List.nodup_dedup _).perm (List.perm_insertionSort _ _).symm

theorem freshTable_length (e : String) :
    (MCDCSolver.init e).generate_truth_table.2.length
      = 2 ^ (MCDCSolver.init e).vars.length := by
  rw [init_generate_table, rowsFrom_length, allCombos_length]
  rfl

theorem freshTable_pos (e : String) :
    0 < (MCDCSolver.init e).generate_truth_table.2.length := by
  rw [freshTable_length]
  exact Nat.pos_pow_of_pos _ (by omega)

theorem freshTable_ne_nil (e : String) :
    (MCDCSolver.init e).generate_truth_table.2 ≠ [] := by
  intro h
  have := freshTable_pos e
  rw [h] at this
  simp at this

theorem freshTable_getD (e : String) (k : Nat)
    (hk : k < (MCDCSolver.init e).generate_truth_table.2.length) :
    (MCDCSolver.init e).generate_truth_table.2.getD k default
      = ⟨k + 1, bigEndianBits (MCDCSolver.init e).vars.length k,
          evalPyBool (MCDCSolver.init e).expression
            ((MCDCSolver.init e).vars.zip
              (bigEndianBits (MCDCSolver.init e).vars.length k))⟩ := by
  have hvars : (MCDCSolver.init e).vars = extractVariables (normalizeExpression e) := rfl
  have hexpr : (MCDCSolver.init e).expression = normalizeExpression e := rfl
  rw [List.getD_eq_getElem _ _ hk]
  have hk2 : k < (allCombos (extractVariables (normalizeExpression e)).length).length := by
    rw [allCombos_length]
    simpa [freshTable_length, hvars] using hk
  have hk3 : k < (rowsFrom (normalizeExpression e)
      (extractVariables (normalizeExpression e)) 1
      (allCombos (extractVariables (normalizeExpression e)).length)).length := by
    rw [rowsFrom_length]; exact hk2
  have := rowsFrom_getElem (normalizeExpression e)
    (extractVariables (normalizeExpression e)) 1 k
    (allCombos (extractVariables (normalizeExpression e)).length) hk2 hk3
  have hbits := allCombos_getElem hk2
  simp only [init_generate_table]
  rw [this, hbits, hvars, hexpr]
  congr 1
  omega

/-- C1: on a fresh solver, the first call to `generate_truth_table`
produces exactly `2 ^ n` rows over the sorted, duplicate-free variable
list, with pairwise-distinct assignments, test numbers `1 .. 2 ^ n`, and
row `k` (0-based) carrying the `n`-bit big-endian binary representation
of `k` — the first variable most significant, the last varying
fastest. -/
theorem truth_table_first_call_spec (e : String) :
    (MCDCSolver.init e).generate_truth_table.2.length
        = 2 ^ (MCDCSolver.init e).vars.length
    ∧ List.Sorted (· ≤ ·) (MCDCSolver.init e).vars
    ∧ (MCDCSolver.init e).vars.Nodup
    ∧ List.Pairwise (fun r1 r2 => r1.values ≠ r2.values)
        (MCDCSolver.init e).generate_truth_table.2
    ∧ ∀ k, k < (MCDCSolver.init e).generate_truth_table.2.length →
        ((MCDCSolver.init e).generate_truth_table.2.getD k default).test_num = k + 1
        ∧ ((MCDCSolver.init e).generate_truth_table.2.getD k default).values
            = bigEndianBits (MCDCSolver.init e).vars.length k := by
  refine ⟨freshTable_length e, extractVariables_sorted _, extractVariables_nodup _,
    ?_, ?_⟩
  · have hmap := rowsFrom_map_values (normalizeExpression e)
      (extractVariables (normalizeExpression e)) 1
      (allCombos (extractVariables (normalizeExpression e)).length)
    have hnd : ((MCDCSolver.init e).generate_truth_table.2.map Row.values).Nodup := by
      rw [init_generate_table, hmap]
      exact allCombos_nodup _
    exact List.pairwise_map.1 hnd
  · intro k hk
    rw [freshTable_getD e k hk]
    exact ⟨rfl, rfl⟩

/-- Witness for `truth_table_first_call_spec` at a concrete decision and
row index. -/
theorem truth_table_first_call_spec_witness :
    (2 : Nat) < (MCDCSolver.init "(a && b) || c").generate_truth_table.2.length
    ∧ ((MCDCSolver.init "(a && b) || c").generate_truth_table.2.getD 2 default).test_num
        = 3
    ∧ ((MCDCSolver.init "(a && b) || c").generate_truth_table.2.getD 2 default).values
        = bigEndianBits (MCDCSolver.init "(a && b) || c").vars.length 2 :=
  ⟨by decide, (truth_table_first_call_spec "(a && b) || c").2.2.2.2 2 (by decide)⟩

/-! ### MC/DC pair analysis -/

theorem lookup_pairs_map (f : Char → List (Nat × Nat)) :
    ∀ (vars : List Char), vars.Nodup → ∀ v ∈ vars,
      ((vars.map fun w => (w, f w)).lookup v) = some (f v) := by
  intro vars
  induction vars with
  | nil => intro _ v hv; simp at hv
  | cons a l ih =>
    intro hnd v hv
    by_cases hva : v = a
    · subst hva
      simp [List.lookup]
    · rcases List.mem_cons.1 hv with h | h
      · exact absurd h hva
      · have : (v == a) = false := by simp [hva]
        simp only [List.map_cons, List.lookup, this]
        exact ih (List.Nodup.of_cons hnd) v h

theorem mcdcMatch_iff (vars : List Char) (v : Char) (r1 r2 : Row) :
    mcdcMatch vars v r1 r2 = true ↔
      (∀ w ∈ vars, w ≠ v → rowVal vars r1 w = rowVal vars r2 w)
      ∧ rowVal vars r1 v ≠ rowVal vars r2 v
      ∧ r1.result ≠ r2.result := by
  unfold mcdcMatch
  rw [Bool.and_eq_true, Bool.and_eq_true, List.all_eq_true]
  constructor
  · rintro ⟨⟨h1, h2⟩, h3⟩
    refine ⟨?_, bne_iff_ne.1 h2, bne_iff_ne.1 h3⟩
    intro w hw hne
    have := h1 w hw
    rw [if_neg hne] at this
    exact beq_iff_eq.1 this
  · rintro ⟨h1, h2, h3⟩
    refine ⟨⟨?_, bne_iff_ne.2 h2⟩, bne_iff_ne.2 h3⟩
    intro w hw
    by_cases hwv : w = v
    · rw [if_pos hwv]
    · rw [if_neg hwv]
      exact beq_iff_eq.2 (h1 w hw hwv)

theorem mem_pairsFor (vars : List Char) (table : List Row) (v : Char)
    (x : Nat × Nat) :
    x ∈ pairsFor vars table v ↔
      ∃ p q, p < q ∧ q < table.length
        ∧ mcdcMatch vars v (table.getD p default) (table.getD q default) = true
        ∧ x = ((table.getD p default).test_num, (table.getD q default).test_num) := by
  unfold pairsFor
  constructor
  · intro hx
    rcases List.mem_flatMap.1 hx with ⟨i, hi, hx2⟩
    rcases List.mem_filterMap.1 hx2 with ⟨j, hj, hx3⟩
    rw [List.mem_range] at hi hj
    by_cases hc : i < j ∧ mcdcMatch vars v (table.getD i default) (table.getD j default) = true
    · rw [if_pos hc] at hx3
      exact ⟨i, j, hc.1, hj, hc.2, (Option.some.inj hx3).symm⟩
    · rw [if_neg hc] at hx3
      cases hx3
  · rintro ⟨p, q, hpq, hq, hm, rfl⟩
    refine List.mem_flatMap.2 ⟨p, List.mem_range.2 (lt_trans hpq hq), ?_⟩
    refine List.mem_filterMap.2 ⟨q, List.mem_range.2 hq, ?_⟩
    rw [if_pos ⟨hpq, hm⟩]

theorem init_find_pairs (e : String) :
    (MCDCSolver.init e).find_mcdc_pairs.2
      = (MCDCSolver.init e).vars.map
          (fun v => (v, pairsFor (MCDCSolver.init e).vars
            (MCDCSolver.init e).generate_truth_table.2 v)) := rfl

/-- C2: for the truth table of a fresh solver, the pairs list recorded
for a variable `v` contains `(i, j)` exactly when `i < j` are valid
1-based test numbers, all variables other than `v` agree on rows `i` and
`j`, `v` flips between them, and the results differ — so the complete
set of qualifying pairs is retained. -/
theorem find_pairs_characterization (e : String) (v : Char)
    (hv : v ∈ (MCDCSolver.init e).vars) (ps : List (Nat × Nat))
    (hps : ((MCDCSolver.init e).find_mcdc_pairs.2).lookup v = some ps)
    (i j : Nat) :
    (i, j) ∈ ps ↔
      1 ≤ i ∧ i < j ∧ j ≤ (MCDCSolver.init e).generate_truth_table.2.length
      ∧ (∀ w ∈ (MCDCSolver.init e).vars, w ≠ v →
          rowVal (MCDCSolver.init e).vars
              ((MCDCSolver.init e).generate_truth_table.2.getD (i - 1) default) w
            = rowVal (MCDCSolver.init e).vars
              ((MCDCSolver.init e).generate_truth_table.2.getD (j - 1) default) w)
      ∧ rowVal (MCDCSolver.init e).vars
            ((MCDCSolver.init e).generate_truth_table.2.getD (i - 1) default) v
          ≠ rowVal (MCDCSolver.init e).vars
            ((MCDCSolver.init e).generate_truth_table.2.getD (j - 1) default) v
      ∧ ((MCDCSolver.init e).generate_truth_table.2.getD (i - 1) default).result
          ≠ ((MCDCSolver.init e).generate_truth_table.2.getD (j - 1) default).result := by
  have hnd : (MCDCSolver.init e).vars.Nodup := extractVariables_nodup _
  rw [init_find_pairs, lookup_pairs_map _ _ hnd v hv] at hps
  obtain rfl : ps = _ := (Option.some.inj hps).symm
  rw [mem_pairsFor]
  constructor
  · rintro ⟨p, q, hpq, hq, hm, heq⟩
    have hp : p < (MCDCSolver.init e).generate_truth_table.2.length := lt_trans hpq hq
    have hnum_p : ((MCDCSolver.init e).generate_truth_table.2.getD p default).test_num
        = p + 1 := by rw [freshTable_getD e p hp]
    have hnum_q : ((MCDCSolver.init e).generate_truth_table.2.getD q default).test_num
        = q + 1 := by rw [freshTable_getD e q hq]
    rw [hnum_p, hnum_q] at heq
    obtain ⟨rfl, rfl⟩ : i = p + 1 ∧ j = q + 1 := by
      constructor <;> [exact congrArg Prod.fst heq; exact congrArg Prod.snd heq]
    have hip : p + 1 - 1 = p := by omega
    have hjq : q + 1 - 1 = q := by omega
    rw [hip, hjq]
    rcases (mcdcMatch_iff _ _ _ _).1 hm with ⟨h1, h2, h3⟩
    exact ⟨by omega, by omega, by omega, h1, h2, h3⟩
  · rintro ⟨h1i, hij, hjle, hother, hflip, hres⟩
    refine ⟨i - 1, j - 1, by omega, by omega, ?_, ?_⟩
    · rw [mcdcMatch_iff]
      exact ⟨hother, hflip, hres⟩
    · have hi' : i - 1 < (MCDCSolver.init e).generate_truth_table.2.length := by omega
      have hj' : j - 1 < (MCDCSolver.init e).generate_truth_table.2.length := by omega
      have h1 := freshTable_getD e (i - 1) hi'
      have h2 := freshTable_getD e (j - 1) hj'
      rw [h1, h2]
      have hi2 : i - 1 + 1 = i := by omega
      have hj2 : j - 1 + 1 = j := by omega
      simp [hi2, hj2]

/-- Witness for `find_pairs_characterization`: in `a || b`, the pair
`(1, 3)` recorded for `a` has differing results in rows 1 and 3. -/
theorem find_pairs_characterization_witness :
    ((MCDCSolver.init "a || b").generate_truth_table.2.getD 0 default).result
      ≠ ((MCDCSolver.init "a || b").generate_truth_table.2.getD 2 default).result :=
  (((find_pairs_characterization "a || b" 'a' (by decide) [(1, 3)] (by decide) 1 3).1
    (by decide)).2.2.2.2.2)

/-! ### Minimal test suite -/

theorem suiteStep_nil {acc : Finset Nat} {e : Char × List (Nat × Nat)}
    (h : e.2 = []) : suiteStep acc e = acc := by
  unfold suiteStep
  rw [h]

theorem suiteStep_cons {acc : Finset Nat} {e : Char × List (Nat × Nat)}
    {p : Nat × Nat} {rest : List (Nat × Nat)} (h : e.2 = p :: rest) :
    suiteStep acc e = insert p.1 (insert p.2 acc) := by
  unfold suiteStep
  rw [h]

theorem mem_suite_foldl (pm : List (Char × List (Nat × Nat))) :
    ∀ (acc : Finset Nat) (x : Nat),
      x ∈ pm.foldl suiteStep acc →
      x ∈ acc ∨ ∃ pr ∈ pm, ∃ a b rest, pr.2 = (a, b) :: rest ∧ (x = a ∨ x = b) := by
  induction pm with
  | nil => intro acc x hx; exact Or.inl hx
  | cons e pm ih =>
    intro acc x hx
    rw [List.foldl_cons] at hx
    rcases h : e.2 with _ | ⟨p, rest⟩
    · rw [suiteStep_nil h] at hx
      rcases ih acc x hx with h' | ⟨pr, hpr, a, b, r, h2, h3⟩
      · exact Or.inl h'
      · exact Or.inr ⟨pr, List.mem_cons_of_mem _ hpr, a, b, r, h2, h3⟩
    · rw [suiteStep_cons h] at hx
      rcases ih _ x hx with h' | ⟨pr, hpr, a, b, r, h2, h3⟩
      · rcases Finset.mem_insert.1 h' with h'' | h''
        · exact Or.inr ⟨e, List.mem_cons_self _ _, p.1, p.2, rest, h, Or.inl h''⟩
        · rcases Finset.mem_insert.1 h'' with h3 | h3
          · exact Or.inr ⟨e, List.mem_cons_self _ _, p.1, p.2, rest, h, Or.inr h3⟩
          · exact Or.inl h3
      · exact Or.inr ⟨pr, List.mem_cons_of_mem _ hpr, a, b, r, h2, h3⟩

theorem card_suite_foldl (pm : List (Char × List (Nat × Nat))) :
    ∀ (acc : Finset Nat),
      (pm.foldl suiteStep acc).card
        ≤ acc.card + 2 * pm.countP (fun pr => !pr.2.isEmpty) := by
  induction pm with
  | nil => intro acc; simp
  | cons e pm ih =>
    intro acc
    rw [List.foldl_cons, List.countP_cons]
    rcases h : e.2 with _ | ⟨p, rest⟩
    · rw [suiteStep_nil h]
      simpa using ih acc
    · rw [suiteStep_cons h]
      have h3 := ih (insert p.1 (insert p.2 acc))
      have h1 := Finset.card_insert_le p.1 (insert p.2 acc)
      have h2 := Finset.card_insert_le p.2 acc
      simp only [List.isEmpty_cons, Bool.not_false, if_true]
      omega

theorem find_fst_pairs (s : MCDCSolver) :
    (s.find_mcdc_pairs.1).mcdc_pairs = s.find_mcdc_pairs.2 := rfl

theorem init_minimal_suite (e : String) :
    (MCDCSolver.init e).get_minimal_test_suite.2
      = minimalSuiteOf ((MCDCSolver.init e).find_mcdc_pairs.2) := by
  unfold MCDCSolver.get_minimal_test_suite
  rw [if_pos (show (MCDCSolver.init e).mcdc_pairs = [] from rfl)]
  show minimalSuiteOf ((MCDCSolver.init e).find_mcdc_pairs.1).mcdc_pairs = _
  rw [find_fst_pairs]

/-- C9: the minimal-suite heuristic on a fresh solver returns only valid
test numbers of the generated truth table (each element is the test
number of an actual row, hence between 1 and 2^n), and its size is at
most twice the number of variables having at least one independence
pair. -/
theorem minimal_suite_bounds (e : String) :
    (∀ x ∈ (MCDCSolver.init e).get_minimal_test_suite.2,
        (∃ r ∈ (MCDCSolver.init e).generate_truth_table.2, r.test_num = x)
        ∧ 1 ≤ x ∧ x ≤ 2 ^ (MCDCSolver.init e).vars.length)
    ∧ (MCDCSolver.init e).get_minimal_test_suite.2.card
        ≤ 2 * ((MCDCSolver.init e).find_mcdc_pairs.2.countP fun pr => !pr.2.isEmpty) := by
  constructor
  · intro x hx
    rw [init_minimal_suite] at hx
    rcases mem_suite_foldl _ ∅ x hx with h | ⟨pr, hpr, a, b, rest, hrest, hab⟩
    · simp at h
    · rw [init_find_pairs] at hpr
      rcases List.mem_map.1 hpr with ⟨v, _, rfl⟩
      have hmem : (a, b) ∈ pairsFor (MCDCSolver.init e).vars
          (MCDCSolver.init e).generate_truth_table.2 v := by
        simp only at hrest
        rw [hrest]
        exact List.mem_cons_self _ _
      rcases (mem_pairsFor _ _ _ _).1 hmem with ⟨p, q, hpq, hq, _, heq⟩
      have hp : p < (MCDCSolver.init e).generate_truth_table.2.length :=
        lt_trans hpq hq
      have hlen := freshTable_length e
      have hnum_p : ((MCDCSolver.init e).generate_truth_table.2.getD p default).test_num
          = p + 1 := by rw [freshTable_getD e p hp]
      have hnum_q : ((MCDCSolver.init e).generate_truth_table.2.getD q default).test_num
          = q + 1 := by rw [freshTable_getD e q hq]
      have ha : a = p + 1 := by
        rw [← hnum_p]
        exact congrArg Prod.fst heq
      have hb : b = q + 1 := by
        rw [← hnum_q]
        exact congrArg Prod.snd heq
      rcases hab with rfl | rfl
      · refine ⟨⟨_, ?_, by rw [hnum_p, ha]⟩, by omega, by omega⟩
        rw [List.getD_eq_getElem _ _ hp]
        exact List.getElem_mem hp
      · refine ⟨⟨_, ?_, by rw [hnum_q, hb]⟩, by omega, by omega⟩
        rw [List.getD_eq_getElem _ _ hq]
        exact List.getElem_mem hq
  · rw [init_minimal_suite]
    simpa using card_suite_foldl ((MCDCSolver.init e).find_mcdc_pairs.2) ∅

/-- Witness for `minimal_suite_bounds` at the decision `a && b`, whose
minimal suite is computed concretely. -/
theorem minimal_suite_bounds_witness :
    (3 : Nat) ∈ (MCDCSolver.init "a && b").get_minimal_test_suite.2
    ∧ ((∃ r ∈ (MCDCSolver.init "a && b").generate_truth_table.2, r.test_num = 3)
        ∧ 1 ≤ 3 ∧ 3 ≤ 2 ^ (MCDCSolver.init "a && b").vars.length) :=
  ⟨by decide, (minimal_suite_bounds "a && b").1 3 (by decide)⟩

/-! ### Lazy invocation and re-invocation -/

theorem find_pairs_of_ne_nil {s : MCDCSolver} (h : s.truth_table ≠ []) :
    s.find_mcdc_pairs.2 = s.vars.map fun v => (v, pairsFor s.vars s.truth_table v) := by
  unfold MCDCSolver.find_mcdc_pairs
  rw [if_neg h]

theorem suite_of_pairs_nonempty {s : MCDCSolver} (h : s.mcdc_pairs ≠ []) :
    s.get_minimal_test_suite.2 = minimalSuiteOf s.mcdc_pairs := by
  unfold MCDCSolver.get_minimal_test_suite
  rw [if_neg h]

theorem suite_of_pairs_empty {s : MCDCSolver} (h : s.mcdc_pairs = []) :
    s.get_minimal_test_suite.2 = minimalSuiteOf (s.find_mcdc_pairs.1).mcdc_pairs := by
  unfold MCDCSolver.get_minimal_test_suite
  rw [if_pos h]

/-- C10: on a fresh solver, pair analysis and the minimal-suite
computation may be called before truth-table generation; each lazily
generates the missing data, so any call order gives the same pairs map
and the same minimal suite as the ordered chain generate, find-pairs,
minimal-suite. -/
theorem lazy_invocation_consistency (e : String) :
    (MCDCSolver.init e).find_mcdc_pairs
        = ((MCDCSolver.init e).generate_truth_table.1).find_mcdc_pairs
    ∧ (MCDCSolver.init e).get_minimal_test_suite.2
        = (((MCDCSolver.init e).generate_truth_table.1).find_mcdc_pairs.1).get_minimal_test_suite.2
    ∧ ((MCDCSolver.init e).find_mcdc_pairs.1).get_minimal_test_suite.2
        = (((MCDCSolver.init e).generate_truth_table.1).find_mcdc_pairs.1).get_minimal_test_suite.2 := by
  have h1 : (MCDCSolver.init e).find_mcdc_pairs
      = ((MCDCSolver.init e).generate_truth_table.1).find_mcdc_pairs := by
    unfold MCDCSolver.find_mcdc_pairs
    rw [if_pos (show (MCDCSolver.init e).truth_table = [] from rfl),
      if_neg (show ¬ ((MCDCSolver.init e).generate_truth_table.1).truth_table = []
        from freshTable_ne_nil e)]
  have h2 : (MCDCSolver.init e).get_minimal_test_suite.2
      = ((MCDCSolver.init e).find_mcdc_pairs.1).get_minimal_test_suite.2 := by
    rw [init_minimal_suite]
    by_cases hv : (MCDCSolver.init e).vars = []
    · have hpm : (MCDCSolver.init e).find_mcdc_pairs.2 = [] := by
        rw [init_find_pairs, hv]
        rfl
      have hpm1 : ((MCDCSolver.init e).find_mcdc_pairs.1).mcdc_pairs = [] := by
        rw [find_fst_pairs, hpm]
      rw [suite_of_pairs_empty hpm1, find_fst_pairs,
        find_pairs_of_ne_nil
          (show ((MCDCSolver.init e).find_mcdc_pairs.1).truth_table ≠ []
            from freshTable_ne_nil e),
        show ((MCDCSolver.init e).find_mcdc_pairs.1).vars = (MCDCSolver.init e).vars
          from rfl,
        hv, hpm]
      rfl
    · have hpm1 : ((MCDCSolver.init e).find_mcdc_pairs.1).mcdc_pairs ≠ [] := by
        rw [find_fst_pairs, init_find_pairs]
        intro hcon
        rw [List.map_eq_nil_iff] at hcon
        exact hv hcon
      rw [suite_of_pairs_nonempty hpm1, find_fst_pairs]
  exact ⟨h1, by rw [h2, h1], by rw [← h1]⟩

/-- Amended C6: re-invocation of `generate_truth_table` is not
idempotent; the method appends a second copy of the rows to the stored
table, so the second call returns the first call's rows followed by a
duplicate of them, never the same list. -/
theorem generate_reinvocation_appends (e : String) :
    ((MCDCSolver.init e).generate_truth_table.1).generate_truth_table.2
      = (MCDCSolver.init e).generate_truth_table.2
        ++ (MCDCSolver.init e).generate_truth_table.2
    ∧ ((MCDCSolver.init e).generate_truth_table.1).generate_truth_table.2
      ≠ (MCDCSolver.init e).generate_truth_table.2 := by
  have happ : ((MCDCSolver.init e).generate_truth_table.1).generate_truth_table.2
      = (MCDCSolver.init e).generate_truth_table.2
        ++ (MCDCSolver.init e).generate_truth_table.2 := rfl
  refine ⟨happ, ?_⟩
  intro hcon
  have hcon2 : ((MCDCSolver.init e).generate_truth_table.2
      ++ (MCDCSolver.init e).generate_truth_table.2).length
      = (MCDCSolver.init e).generate_truth_table.2.length := by
    rw [← happ, hcon]
  rw [List.length_append] at hcon2
  have hpos := freshTable_pos e
  omega

/-- Counterexample to C6 as stated: for the decision `a`, the second
call to `generate_truth_table` does not return the same rows as the
first (it returns four rows instead of two). -/
theorem generate_reinvocation_cex :
    ((MCDCSolver.init "a").generate_truth_table.1).generate_truth_table.2
      ≠ (MCDCSolver.init "a").generate_truth_table.2 := by decide

/-! ### No parse-time rejection and no variable cap -/

/-- Counterexample to C5 as stated: the malformed decision text `a &&`
(an empty operand position) is not rejected with a syntax error before
evaluation — solver construction succeeds, and truth-table generation
still runs, evaluating every row and recording the caught evaluation
failure as a `none` result. -/
theorem parse_rejects_cex :
    (MCDCSolver.init "a &&").vars = ['a']
    ∧ (MCDCSolver.init "a &&").generate_truth_table.2
        = [⟨1, [false], none⟩, ⟨2, [true], none⟩] := by decide

/-- Amended C5: malformed decision text is never rejected at parse
time.  Construction (normalization and variable extraction) is total,
truth-table generation still returns all 2^n rows, and each row's
result is exactly the outcome of the guarded per-row evaluation —
`none` when evaluation of the normalized text fails under that row's
assignment. -/
theorem parse_never_rejects (e : String) :
    (MCDCSolver.init e).generate_truth_table.2.length
        = 2 ^ (MCDCSolver.init e).vars.length
    ∧ ∀ k, k < (MCDCSolver.init e).generate_truth_table.2.length →
        ((MCDCSolver.init e).generate_truth_table.2.getD k default).result
          = evalPyBool (MCDCSolver.init e).expression
              ((MCDCSolver.init e).vars.zip
                (bigEndianBits (MCDCSolver.init e).vars.length k)) := by
  refine ⟨freshTable_length e, fun k hk => ?_⟩
  rw [freshTable_getD e k hk]

/-- Witness for `parse_never_rejects` at the malformed input `a &&`. -/
theorem parse_never_rejects_witness :
    (0 : Nat) < (MCDCSolver.init "a &&").generate_truth_table.2.length
    ∧ ((MCDCSolver.init "a &&").generate_truth_table.2.getD 0 default).result
        = evalPyBool (MCDCSolver.init "a &&").expression
            ((MCDCSolver.init "a &&").vars.zip
              (bigEndianBits (MCDCSolver.init "a &&").vars.length 0)) :=
  ⟨by decide, (parse_never_rejects "a &&").2 0 (by decide)⟩

/-- A decision with 21 distinct variables, one more than the cap of 20
suggested by the specification. -/
def capProbeExpr : String :=
  "a && b && c && d && e && f && g && h && i && j && k && l && m && n && o && p && q && r && s && t && u"

/-- Counterexample to C7 as stated: on a decision with 21 variables —
above the suggested cap of 20 — truth-table generation does not fail
with any resource-guard signal; it silently performs the exponential
enumeration and returns all 2^21 rows. -/
theorem variable_cap_cex :
    20 < (MCDCSolver.init capProbeExpr).vars.length
    ∧ (MCDCSolver.init capProbeExpr).generate_truth_table.2.length = 2 ^ 21 := by
  have hv : (MCDCSolver.init capProbeExpr).vars.length = 21 := by decide
  refine ⟨by omega, ?_⟩
  rw [freshTable_length, hv]

/-- Amended C7: the code has no variable-count cap at all — even when
the number of variables exceeds the spec's suggested default cap of 20,
generation silently runs the exponential enumeration and returns the
full table of 2^n rows instead of failing. -/
theorem no_variable_cap (e : String)
    (_h : 20 < (MCDCSolver.init e).vars.length) :
    (MCDCSolver.init e).generate_truth_table.2.length
      = 2 ^ (MCDCSolver.init e).vars.length :=
  freshTable_length e

/-- Witness for `no_variable_cap` at the 21-variable decision. -/
theorem no_variable_cap_witness :
    20 < (MCDCSolver.init capProbeExpr).vars.length
    ∧ (MCDCSolver.init capProbeExpr).generate_truth_table.2.length
        = 2 ^ (MCDCSolver.init capProbeExpr).vars.length :=
  ⟨by decide, no_variable_cap capProbeExpr (by decide)⟩

/-! ## Part B: set cover (scripts/vector_toolkit_cli.py) -/

/-- Entry `M[i, f]` of the binary coverage matrix (rows are tests,
columns are faults), read as a boolean; out-of-range indices read as
false. -/
def matEntry (M : List (List Bool)) (i f : Nat) : Bool :=
  (M.getD i []).getD f false

/-- The accumulated union built by `covered |= M[idx]` over the
selected test indices, starting from `np.zeros(m)`. -/
def unionVec (M : List (List Bool)) (m : Nat) (c : List Nat) : List Bool :=
  c.foldl (fun acc i => List.zipWith (· || ·) acc (M.getD i []))
    (List.replicate m false)

/-- All size-r combinations of the given index list, in the order
produced by `itertools.combinations`: lexicographic. -/
def combosOf : Nat → List Nat → List (List Nat)
  | 0, _ => [[]]
  | _ + 1, [] => []
  | r + 1, x :: xs => ((combosOf r xs).map (x :: ·)) ++ combosOf (r + 1) xs

/-- The test `np.array_equal(covered, target)` with target the all-ones
vector of length m. -/
def coversAll (M : List (List Bool)) (m : Nat) (c : List Nat) : Bool :=
  unionVec M m c == List.replicate m true

/-- The outer loop `for r in range(1, t + 1)` of `exact_min_set_cover`:
try each subset size in order, returning the first covering combination
of the inner enumeration. -/
def exactScan (M : List (List Bool)) (m t : Nat) : List Nat → Option (List Nat)
  | [] => none
  | r :: rs =>
    match (combosOf r (List.range t)).find? (coversAll M m) with
    | some c => some c
    | none => exactScan M m t rs

/-- Embeds `exact_min_set_cover(M)` with `t, m = M.shape`; `none` is
the infeasible marker (Python `None`). -/
def exact_min_set_cover (M : List (List Bool)) (m : Nat) : Option (List Nat) :=
  exactScan M m M.length (List.range' 1 M.length)

/-- The gain of test `i`: `sum(1 for f in uncovered if M[i, f] == 1)`. -/
def uncoveredGain (M : List (List Bool)) (u : Finset Nat) (i : Nat) : Nat :=
  (u.filter fun f => matEntry M i f = true).card

/-- The selection scan of `greedy_set_cover`: fold over tests `0..t-1`
keeping the first strict improvement of the best gain, so the selected
test is the lowest-index maximizer; `none` exactly when no test has
positive gain. -/
def selectBest (M : List (List Bool)) (t : Nat) (u : Finset Nat) :
    Option Nat × Nat :=
  (List.range t).foldl
    (fun acc i =>
      if acc.2 < uncoveredGain M u i then (some i, uncoveredGain M u i) else acc)
    (none, 0)

/-- The while-loop of `greedy_set_cover`, with explicit fuel for
structural termination: fuel equal to the number of uncovered faults
always suffices because each successful round removes at least one
uncovered fault, so the fuel-exhaustion branch is unreachable from the
top-level call. -/
def greedyLoop (M : List (List Bool)) (t : Nat) :
    Nat → Finset Nat → List Nat → Option (List Nat)
  | fuel, u, chosen =>
    if u = ∅ then some chosen
    else
      match fuel with
      | 0 => none
      | fuel' + 1 =>
        match selectBest M t u with
        | (none, _) => none
        | (some b, _) =>
          greedyLoop M t fuel' (u.filter fun f => matEntry M b f = false)
            (chosen ++ [b])

/-- Embeds `greedy_set_cover(M)` with `t, m = M.shape`; `none` is the
infeasible marker. -/
def greedy_set_cover (M : List (List Bool)) (m : Nat) : Option (List Nat) :=
  greedyLoop M M.length m (Finset.range m) []

/-! ### Pointwise characterization of the union -/

theorem rowLen {M : List (List Bool)} {m : Nat}
    (hrows : ∀ row ∈ M, row.length = m) {i : Nat} (hi : i < M.length) :
    (M.getD i []).length = m := by
  rw [List.getD_eq_getElem _ _ hi]
  exact hrows _ (List.getElem_mem hi)

theorem unionFold_getD {M : List (List Bool)} {m : Nat}
    (hrows : ∀ row ∈ M, row.length = m) {f : Nat} (hf : f < m) :
    ∀ (c : List Nat) (acc : List Bool), acc.length = m →
      (∀ i ∈ c, i < M.length) →
      (c.foldl (fun acc i => List.zipWith (· || ·) acc (M.getD i [])) acc).getD f false
        = (acc.getD f false || c.any fun i => matEntry M i f) := by
  intro c
  induction c with
  | nil => intro acc _ _; simp
  | cons i is ih =>
    intro acc hlen hbound
    rw [List.foldl_cons]
    have hrow : (M.getD i []).length = m :=
      rowLen hrows (hbound i (List.mem_cons_self _ _))
    have hzlen : (List.zipWith (· || ·) acc (M.getD i [])).length = m := by
      rw [List.length_zipWith, hlen, hrow]
      exact min_self m
    rw [ih _ hzlen (fun j hj => hbound j (List.mem_cons_of_mem _ hj))]
    have hfz : f < (List.zipWith (· || ·) acc (M.getD i [])).length := by omega
    have hfa : f < acc.length := by omega
    have hfr : f < (M.getD i []).length := by omega
    rw [List.getD_eq_getElem _ _ hfz, List.getElem_zipWith, List.any_cons,
      ← List.getD_eq_getElem acc false hfa,
      ← List.getD_eq_getElem (M.getD i []) false hfr]
    exact Bool.or_assoc _ _ _

theorem unionFold_length {M : List (List Bool)} {m : Nat}
    (hrows : ∀ row ∈ M, row.length = m) :
    ∀ (c : List Nat) (acc : List Bool), acc.length = m →
      (∀ i ∈ c, i < M.length) →
      (c.foldl (fun acc i => List.zipWith (· || ·) acc (M.getD i [])) acc).length = m := by
  intro c
  induction c with
  | nil => intro acc hlen _; simpa using hlen
  | cons i is ih =>
    intro acc hlen hbound
    rw [List.foldl_cons]
    refine ih _ ?_ (fun j hj => hbound j (List.mem_cons_of_mem _ hj))
    rw [List.length_zipWith, hlen,
      rowLen hrows (hbound i (List.mem_cons_self _ _))]
    exact min_self m

theorem unionVec_eq_ones_iff {M : List (List Bool)} {m : Nat} {c : List Nat}
    (hrows : ∀ row ∈ M, row.length = m) (hbound : ∀ i ∈ c, i < M.length) :
    unionVec M m c = List.replicate m true
      ↔ ∀ f, f < m → ∃ i ∈ c, matEntry M i f = true := by
  constructor
  · intro h f hf
    have hgd := congrArg (fun l => List.getD l f false) h
    simp only at hgd
    rw [unionVec, unionFold_getD hrows hf c _ (by simp) hbound,
      List.getD_eq_getElem (List.replicate m false) false (by simpa using hf),
      List.getElem_replicate,
      List.getD_eq_getElem (List.replicate m true) false (by simpa using hf),
      List.getElem_replicate, Bool.false_or] at hgd
    exact List.any_eq_true.1 hgd
  · intro h
    apply List.ext_getElem
    · rw [unionVec, unionFold_length hrows c _ (by simp) hbound]
      simp
    · intro f h1 h2
      have hf : f < m := by
        rw [unionVec, unionFold_length hrows c _ (by simp) hbound] at h1
        exact h1
      rw [List.getElem_replicate, ← List.getD_eq_getElem _ false h1,
        unionVec, unionFold_getD hrows hf c _ (by simp) hbound,
        List.getD_eq_getElem (List.replicate m false) false (by simpa using hf),
        List.getElem_replicate, Bool.false_or]
      exact List.any_eq_true.2 (h f hf)

theorem coversAll_iff {M : List (List Bool)} {m : Nat} {c : List Nat}
    (hrows : ∀ row ∈ M, row.length = m) (hbound : ∀ i ∈ c, i < M.length) :
    coversAll M m c = true
      ↔ ∀ f, f < m → ∃ i ∈ c, matEntry M i f = true := by
  rw [coversAll, beq_iff_eq]
  exact unionVec_eq_ones_iff hrows hbound

/-! ### Combinations -/

theorem mem_combosOf : ∀ (l : List Nat) (r : Nat) (c : List Nat),
    c ∈ combosOf r l ↔ c.Sublist l ∧ c.length = r := by
  intro l
  induction l with
  | nil =>
    intro r c
    cases r with
    | zero =>
      simp only [combosOf, List.mem_singleton]
      constructor
      · rintro rfl; simp
      · rintro ⟨hs, hl⟩
        exact List.length_eq_zero.1 hl
    | succ r =>
      simp only [combosOf, List.not_mem_nil, false_iff]
      rintro ⟨hs, hl⟩
      have := List.sublist_nil.1 hs
      subst this
      simp at hl
  | cons x xs ih =>
    intro r c
    cases r with
    | zero =>
      simp only [combosOf, List.mem_singleton]
      constructor
      · rintro rfl; simp
      · rintro ⟨hs, hl⟩
        exact List.length_eq_zero.1 hl
    | succ r =>
      show c ∈ ((combosOf r xs).map (x :: ·)) ++ combosOf (r + 1) xs ↔ _
      rw [List.mem_append, List.mem_map]
      constructor
      · rintro (⟨c', hc', rfl⟩ | hc)
        · rcases (ih r c').1 hc' with ⟨hs, hl⟩
          exact ⟨List.Sublist.cons₂ x hs, by simp [hl]⟩
        · rcases (ih (r + 1) c).1 hc with ⟨hs, hl⟩
          exact ⟨List.Sublist.cons x hs, hl⟩
      · rintro ⟨hs, hl⟩
        rcases List.sublist_cons_iff.1 hs with h | ⟨c', rfl, hc'⟩
        · exact Or.inr ((ih (r + 1) c).2 ⟨h, hl⟩)
        · exact Or.inl ⟨c', (ih r c').2 ⟨hc', by simpa using hl⟩, rfl⟩

theorem sorted_sublist_range' : ∀ (n : Nat) (l : List Nat) (a : Nat),
    List.Pairwise (· < ·) l → (∀ x ∈ l, a ≤ x ∧ x < a + n) →
    l.Sublist (List.range' a n) := by
  intro n
  induction n with
  | zero =>
    intro l a _ hb
    cases l with
    | nil => simp
    | cons x xs => exact absurd (hb x (List.mem_cons_self _ _)) (by omega)
  | succ n ih =>
    intro l a hp hb
    rw [List.range'_succ]
    cases l with
    | nil => simp
    | cons x xs =>
      rcases Nat.eq_or_lt_of_le (hb x (List.mem_cons_self _ _)).1 with heq | hlt
      · rw [heq]
        refine List.Sublist.cons₂ x (ih xs (x + 1) hp.of_cons ?_)
        intro y hy
        have hxy : x < y := List.rel_of_pairwise_cons hp hy
        have h2 := (hb y (List.mem_cons_of_mem _ hy)).2
        constructor <;> omega
      · refine List.Sublist.cons a (ih (x :: xs) (a + 1) hp ?_)
        intro y hy
        have h2 := (hb y hy).2
        rcases List.mem_cons.1 hy with h1 | hy'
        · constructor <;> omega
        · have hxy : x < y := List.rel_of_pairwise_cons hp hy'
          constructor <;> omega

theorem sorted_lt_sublist_range {l : List Nat} {t : Nat}
    (hp : List.Pairwise (· < ·) l) (hb : ∀ x ∈ l, x < t) :
    l.Sublist (List.range t) := by
  rw [List.range_eq_range']
  exact sorted_sublist_range' t l 0 hp (fun x hx => ⟨Nat.zero_le x, by
    have := hb x hx; omega⟩)

theorem combosOf_pairwise_lex : ∀ (l : List Nat) (r : Nat),
    List.Pairwise (· < ·) l →
    List.Pairwise (List.Lex (· < ·)) (combosOf r l) := by
  intro l
  induction l with
  | nil =>
    intro r _
    cases r with
    | zero => simp [combosOf]
    | succ r => simp [combosOf]
  | cons x xs ih =>
    intro r hp
    cases r with
    | zero => simp [combosOf]
    | succ r =>
      show List.Pairwise _ (((combosOf r xs).map (x :: ·)) ++ combosOf (r + 1) xs)
      rw [List.pairwise_append]
      refine ⟨?_, ih (r + 1) hp.of_cons, ?_⟩
      · rw [List.pairwise_map]
        exact (ih r hp.of_cons).imp fun h => List.Lex.cons h
      · rintro a ha b hb
        rcases List.mem_map.1 ha with ⟨a', _, rfl⟩
        rcases (mem_combosOf xs (r + 1) b).1 hb with ⟨hsb, hlb⟩
        cases b with
        | nil => simp at hlb
        | cons y b' =>
          have hy : y ∈ xs := List.Sublist.mem (List.mem_cons_self _ _) hsb
          exact List.Lex.rel (List.rel_of_pairwise_cons hp hy)

/-! ### The exact solver -/

theorem exactScan_none_iff (M : List (List Bool)) (m t : Nat) :
    ∀ rs, exactScan M m t rs = none
      ↔ ∀ r ∈ rs, (combosOf r (List.range t)).find? (coversAll M m) = none := by
  intro rs
  induction rs with
  | nil => simp [exactScan]
  | cons r rs ih =>
    cases hf : (combosOf r (List.range t)).find? (coversAll M m) with
    | some c =>
      have hstep : exactScan M m t (r :: rs) = some c := by
        simp [exactScan, hf]
      constructor
      · intro h
        rw [hstep] at h
        cases h
      · intro h
        have h2 := h r (List.mem_cons_self _ _)
        rw [h2] at hf
        cases hf
    | none =>
      have hstep : exactScan M m t (r :: rs) = exactScan M m t rs := by
        simp [exactScan, hf]
      rw [hstep, ih]
      constructor
      · intro h r' hr'
        rcases List.mem_cons.1 hr' with h1 | h1
        · rw [h1]; exact hf
        · exact h r' h1
      · intro h r' hr'
        exact h r' (List.mem_cons_of_mem _ hr')

theorem exactScan_some (M : List (List Bool)) (m t : Nat) :
    ∀ rs c, exactScan M m t rs = some c →
      ∃ rs₁ r rs₂, rs = rs₁ ++ r :: rs₂
        ∧ (∀ r' ∈ rs₁, (combosOf r' (List.range t)).find? (coversAll M m) = none)
        ∧ (combosOf r (List.range t)).find? (coversAll M m) = some c := by
  intro rs
  induction rs with
  | nil => intro c h; simp [exactScan] at h
  | cons r rs ih =>
    intro c h
    cases hf : (combosOf r (List.range t)).find? (coversAll M m) with
    | some c' =>
      have hstep : exactScan M m t (r :: rs) = some c' := by
        simp [exactScan, hf]
      obtain rfl : c' = c := Option.some.inj (hstep.symm.trans h)
      exact ⟨[], r, rs, rfl, by simp, hf⟩
    | none =>
      have hstep : exactScan M m t (r :: rs) = exactScan M m t rs := by
        simp [exactScan, hf]
      rw [hstep] at h
      rcases ih c h with ⟨rs₁, r', rs₂, heq, h1, h2⟩
      refine ⟨r :: rs₁, r', rs₂, by simp [heq], ?_, h2⟩
      intro r'' hr''
      rcases List.mem_cons.1 hr'' with h3 | h3
      · rw [h3]; exact hf
      · exact h1 r'' h3

theorem mem_range_one {r t : Nat} : r ∈ List.range' 1 t ↔ 1 ≤ r ∧ r ≤ t := by
  rw [List.mem_range']
  constructor
  · rintro ⟨i, hi, rfl⟩
    omega
  · rintro ⟨h1, h2⟩
    exact ⟨r - 1, by omega, by omega⟩

/-- Everything the exact solver guarantees about a returned cover: it is
a combination of test indices, it covers all faults, no strictly smaller
combination covers (smallest r first), and no lexicographically earlier
combination at the same size covers (first hit in enumeration order). -/
theorem exact_some_props {M : List (List Bool)} {m : Nat} {c : List Nat}
    (h : exact_min_set_cover M m = some c) :
    c.Sublist (List.range M.length)
    ∧ 1 ≤ c.length ∧ c.length ≤ M.length
    ∧ unionVec M m c = List.replicate m true
    ∧ (∀ s, s.Sublist (List.range M.length) → s ≠ [] → s.length < c.length →
        unionVec M m s ≠ List.replicate m true)
    ∧ (∀ s ∈ combosOf c.length (List.range M.length), List.Lex (· < ·) s c →
        unionVec M m s ≠ List.replicate m true) := by
  haveI : IsAsymm (List Nat) (List.Lex (· < ·)) := List.Lex.isAsymm _
  obtain ⟨rs₁, r, rs₂, hdecomp, hnone, hfind⟩ :=
    exactScan_some M m M.length _ c h
  rw [List.find?_eq_some] at hfind
  obtain ⟨hc, as, bs, hblock, has⟩ := hfind
  have hmemblock : c ∈ combosOf r (List.range M.length) := by
    rw [hblock]
    exact List.mem_append.2 (Or.inr (List.mem_cons_self _ _))
  obtain ⟨hsub, hlen⟩ := (mem_combosOf _ _ _).1 hmemblock
  have hbound : ∀ i ∈ c, i < M.length := fun i hi =>
    List.mem_range.1 (List.Sublist.mem hi hsub)
  have hr_mem : r ∈ List.range' 1 M.length := by
    rw [hdecomp]
    exact List.mem_append.2 (Or.inr (List.mem_cons_self _ _))
  have hr := mem_range_one.1 hr_mem
  have hcover : unionVec M m c = List.replicate m true := by
    rw [coversAll, beq_iff_eq] at hc
    exact hc
  have hpw : List.Pairwise (· < ·) (List.range' 1 M.length) :=
    List.pairwise_lt_range' 1 M.length
  refine ⟨hsub, by omega, by omega, hcover, ?_, ?_⟩
  · intro s hssub hsne hslt hcontra
    have hs1 : 1 ≤ s.length := by
      cases s with
      | nil => exact absurd rfl hsne
      | cons a l => simp
    have hslen_mem : s.length ∈ List.range' 1 M.length :=
      mem_range_one.2 ⟨hs1, by omega⟩
    have hs_in_rs₁ : s.length ∈ rs₁ := by
      rw [hdecomp] at hslen_mem
      rcases List.mem_append.1 hslen_mem with h1 | h1
      · exact h1
      · exfalso
        rw [hdecomp] at hpw
        have h2 : List.Pairwise (· < ·) (r :: rs₂) := (List.pairwise_append.1 hpw).2.1
        rcases List.mem_cons.1 h1 with h3 | h3
        · omega
        · have := List.rel_of_pairwise_cons h2 h3
          omega
    have hfind_none := hnone _ hs_in_rs₁
    rw [List.find?_eq_none] at hfind_none
    have hs_mem : s ∈ combosOf s.length (List.range M.length) :=
      (mem_combosOf _ _ _).2 ⟨hssub, rfl⟩
    apply hfind_none s hs_mem
    rw [coversAll, beq_iff_eq]
    exact hcontra
  · intro s hs_mem hlex hcontra
    rw [hlen, hblock] at hs_mem
    rcases List.mem_append.1 hs_mem with hs_as | hs_cb
    · have h2 := has s hs_as
      rw [Bool.not_eq_eq_eq_not, Bool.not_true] at h2
      have h3 : coversAll M m s = true := by
        rw [coversAll, beq_iff_eq]
        exact hcontra
      rw [h3] at h2
      cases h2
    · rcases List.mem_cons.1 hs_cb with rfl | hs_bs
      · exact (asymm hlex) hlex
      · have hpl : List.Pairwise (List.Lex (· < ·))
            (combosOf r (List.range M.length)) :=
          combosOf_pairwise_lex _ r (List.pairwise_lt_range M.length)
        rw [hblock] at hpl
        have h2 : List.Pairwise (List.Lex (· < ·)) (c :: bs) :=
          (List.pairwise_append.1 hpl).2.1
        exact (asymm hlex) (List.rel_of_pairwise_cons h2 hs_bs)

/-- The exact solver returns the infeasible marker exactly when some
fault column is entirely zero. -/
theorem exact_none_iff {M : List (List Bool)} {m : Nat}
    (hrows : ∀ row ∈ M, row.length = m) (ht : 0 < M.length) :
    exact_min_set_cover M m = none
      ↔ ∃ f, f < m ∧ ∀ i, i < M.length → matEntry M i f = false := by
  rw [exact_min_set_cover, exactScan_none_iff]
  constructor
  · intro h
    have htm : M.length ∈ List.range' 1 M.length :=
      mem_range_one.2 ⟨ht, le_refl _⟩
    have h2 := h _ htm
    rw [List.find?_eq_none] at h2
    have hmem : List.range M.length ∈ combosOf M.length (List.range M.length) :=
      (mem_combosOf _ _ _).2 ⟨List.Sublist.refl _, List.length_range _⟩
    have hnc := h2 _ hmem
    rw [coversAll_iff hrows (fun i hi => List.mem_range.1 hi)] at hnc
    push_neg at hnc
    obtain ⟨f, hf, hcol⟩ := hnc
    refine ⟨f, hf, fun i hi => ?_⟩
    have h3 := hcol i (List.mem_range.2 hi)
    cases hb : matEntry M i f with
    | false => rfl
    | true => exact absurd hb h3
  · rintro ⟨f, hf, hcol⟩ r _
    rw [List.find?_eq_none]
    intro s hs hcov
    obtain ⟨hsub, _⟩ := (mem_combosOf _ _ _).1 hs
    rw [coversAll_iff hrows
      (fun i hi => List.mem_range.1 (List.Sublist.mem hi hsub))] at hcov
    obtain ⟨i, hi_mem, hientry⟩ := hcov f hf
    have hi_lt : i < M.length := List.mem_range.1 (List.Sublist.mem hi_mem hsub)
    rw [hcol i hi_lt] at hientry
    cases hientry

/-! ### The greedy solver -/

theorem selectBest_zero (M : List (List Bool)) (u : Finset Nat) :
    selectBest M 0 u = (none, 0) := rfl

theorem selectBest_succ (M : List (List Bool)) (t : Nat) (u : Finset Nat) :
    selectBest M (t + 1) u
      = (if (selectBest M t u).2 < uncoveredGain M u t
          then (some t, uncoveredGain M u t) else selectBest M t u) := by
  unfold selectBest
  rw [List.range_succ, List.foldl_append, List.foldl_cons, List.foldl_nil]

/-- Full characterization of the selection scan: a selected test is a
valid index with positive, maximal gain, and every lower-indexed test
has strictly smaller gain (first strict improvement keeps the lowest
index among maximizers); no selection means every test has zero gain. -/
theorem selectBest_spec (M : List (List Bool)) (u : Finset Nat) :
    ∀ t : Nat,
      ((selectBest M t u).1 = none →
        (selectBest M t u).2 = 0 ∧ ∀ i, i < t → uncoveredGain M u i = 0)
      ∧ (∀ b, (selectBest M t u).1 = some b →
          b < t ∧ (selectBest M t u).2 = uncoveredGain M u b
          ∧ 0 < uncoveredGain M u b
          ∧ (∀ i, i < t → uncoveredGain M u i ≤ uncoveredGain M u b)
          ∧ (∀ j, j < b → uncoveredGain M u j < uncoveredGain M u b)) := by
  intro t
  induction t with
  | zero =>
    constructor
    · intro _
      exact ⟨rfl, fun i hi => absurd hi (by omega)⟩
    · intro b hb
      rw [selectBest_zero] at hb
      cases hb
  | succ t ih =>
    rw [selectBest_succ]
    by_cases hlt : (selectBest M t u).2 < uncoveredGain M u t
    · rw [if_pos hlt]
      constructor
      · intro h
        cases h
      · intro b hb
        obtain rfl : t = b := Option.some.inj hb
        refine ⟨by omega, rfl, by omega, ?_, ?_⟩
        · intro i hi
          by_cases h1 : i < t
          · cases hsel : (selectBest M t u).1 with
            | none =>
              have h2 := (ih.1 hsel).2 i h1
              omega
            | some b' =>
              have h2 := ih.2 b' hsel
              have h3 := h2.2.2.2.1 i h1
              have h4 := h2.2.1
              omega
          · have : i = t := by omega
            rw [this]
        · intro j hj
          cases hsel : (selectBest M t u).1 with
          | none =>
            have h2 := (ih.1 hsel).2 j hj
            have h3 := (ih.1 hsel).1
            omega
          | some b' =>
            have h2 := ih.2 b' hsel
            have h3 := h2.2.2.2.1 j hj
            have h4 := h2.2.1
            omega
    · rw [if_neg hlt]
      constructor
      · intro h
        have h1 := ih.1 h
        refine ⟨h1.1, fun i hi => ?_⟩
        by_cases h2 : i < t
        · exact h1.2 i h2
        · have h3 : i = t := by omega
          rw [h3]
          have h4 := h1.1
          omega
      · intro b hb
        have h2 := ih.2 b hb
        refine ⟨by omega, h2.2.1, h2.2.2.1, fun i hi => ?_, h2.2.2.2.2⟩
        by_cases h3 : i < t
        · exact h2.2.2.2.1 i h3
        · have h4 : i = t := by omega
          rw [h4]
          have h5 := h2.2.1
          omega

theorem greedyLoop_eq (M : List (List Bool)) (t fuel : Nat) (u : Finset Nat)
    (chosen : List Nat) :
    greedyLoop M t fuel u chosen
      = if u = ∅ then some chosen
        else
          match fuel with
          | 0 => none
          | fuel' + 1 =>
            match selectBest M t u with
            | (none, _) => none
            | (some b, _) =>
              greedyLoop M t fuel' (u.filter fun f => matEntry M b f = false)
                (chosen ++ [b]) := by
  rw [greedyLoop.eq_def]

theorem gain_pos_entry {M : List (List Bool)} {u : Finset Nat} {b : Nat}
    (hgain : 0 < uncoveredGain M u b) : ∃ f ∈ u, matEntry M b f = true := by
  obtain ⟨f0, hf0⟩ := Finset.card_pos.1 hgain
  rw [Finset.mem_filter] at hf0
  exact ⟨f0, hf0.1, hf0.2⟩

theorem filter_false_card_lt {M : List (List Bool)} {u : Finset Nat} {b : Nat}
    (hgain : 0 < uncoveredGain M u b) :
    (u.filter fun f => matEntry M b f = false).card < u.card := by
  obtain ⟨f0, hf01, hf02⟩ := gain_pos_entry hgain
  have hsub : (u.filter fun f => matEntry M b f = false) ⊆ u :=
    Finset.filter_subset _ _
  have hss : (u.filter fun f => matEntry M b f = false) ⊂ u := by
    rw [Finset.ssubset_iff_of_subset hsub]
    refine ⟨f0, hf01, ?_⟩
    rw [Finset.mem_filter]
    rintro ⟨_, hfalse⟩
    rw [hf02] at hfalse
    cases hfalse
  exact Finset.card_lt_card hss

theorem greedyLoop_some_props (M : List (List Bool)) (t : Nat) :
    ∀ (fuel : Nat) (u : Finset Nat) (chosen c : List Nat),
      u.card ≤ fuel →
      (∀ i ∈ chosen, i < t) → chosen.Nodup →
      (∀ i ∈ chosen, ∀ f ∈ u, matEntry M i f = false) →
      greedyLoop M t fuel u chosen = some c →
      c.Nodup ∧ (∀ i ∈ c, i < t)
      ∧ (∀ f ∈ u, ∃ i ∈ c, matEntry M i f = true)
      ∧ (∀ i ∈ chosen, i ∈ c) := by
  intro fuel
  induction fuel with
  | zero =>
    intro u chosen c hcard hb hnd _ h
    rw [greedyLoop_eq] at h
    by_cases hu : u = ∅
    · rw [if_pos hu] at h
      obtain rfl : chosen = c := Option.some.inj h
      subst hu
      exact ⟨hnd, hb, by simp, fun i hi => hi⟩
    · exfalso
      have h1 : u.Nonempty := Finset.nonempty_iff_ne_empty.2 hu
      have h2 := Finset.card_pos.2 h1
      omega
  | succ fuel ih =>
    intro u chosen c hcard hb hnd hinv h
    rw [greedyLoop_eq] at h
    by_cases hu : u = ∅
    · rw [if_pos hu] at h
      obtain rfl : chosen = c := Option.some.inj h
      subst hu
      exact ⟨hnd, hb, by simp, fun i hi => hi⟩
    · rw [if_neg hu] at h
      cases hsel : selectBest M t u with
      | mk ob g =>
        cases ob with
        | none =>
          rw [hsel] at h
          exact Option.noConfusion h
        | some b =>
          rw [hsel] at h
          have hspec := (selectBest_spec M u t).2 b (by rw [hsel])
          obtain ⟨hbt, _, hgain, _, _⟩ := hspec
          obtain ⟨f0, hf01, hf02⟩ := gain_pos_entry hgain
          have hbnotin : b ∉ chosen := by
            intro hbin
            have h2 := hinv b hbin f0 hf01
            rw [h2] at hf02
            cases hf02
          have hcard' : (u.filter fun f => matEntry M b f = false).card ≤ fuel := by
            have := filter_false_card_lt hgain
            omega
          have hb' : ∀ i ∈ chosen ++ [b], i < t := by
            intro i hi
            rcases List.mem_append.1 hi with h1 | h1
            · exact hb i h1
            · rw [List.mem_singleton.1 h1]
              exact hbt
          have hnd' : (chosen ++ [b]).Nodup := by
            refine List.Nodup.append hnd (List.nodup_singleton b) ?_
            intro a ha hab
            rw [List.mem_singleton.1 hab] at ha
            exact hbnotin ha
          have hinv' : ∀ i ∈ chosen ++ [b],
              ∀ f ∈ u.filter fun f => matEntry M b f = false,
              matEntry M i f = false := by
            intro i hi f hf
            rw [Finset.mem_filter] at hf
            rcases List.mem_append.1 hi with h1 | h1
            · exact hinv i h1 f hf.1
            · rw [List.mem_singleton.1 h1]
              exact hf.2
          obtain ⟨hcnd, hcb, hccov, hsubc⟩ :=
            ih _ (chosen ++ [b]) c hcard' hb' hnd' hinv' h
          refine ⟨hcnd, hcb, ?_,
            fun i hi => hsubc i (List.mem_append.2 (Or.inl hi))⟩
          intro f hf
          by_cases hfu' : f ∈ u.filter fun f => matEntry M b f = false
          · exact hccov f hfu'
          · have hbf : matEntry M b f = true := by
              by_contra hcon
              have h3 : matEntry M b f = false := by
                revert hcon
                cases matEntry M b f <;> simp
              exact hfu' (Finset.mem_filter.2 ⟨hf, h3⟩)
            exact ⟨b, hsubc b (List.mem_append.2 (Or.inr (by simp))), hbf⟩

theorem greedyLoop_none_props (M : List (List Bool)) (t : Nat) :
    ∀ (fuel : Nat) (u : Finset Nat) (chosen : List Nat),
      u.card ≤ fuel →
      greedyLoop M t fuel u chosen = none →
      ∃ f ∈ u, ∀ i, i < t → matEntry M i f = false := by
  intro fuel
  induction fuel with
  | zero =>
    intro u chosen hcard h
    rw [greedyLoop_eq] at h
    by_cases hu : u = ∅
    · rw [if_pos hu] at h
      exact Option.noConfusion h
    · exfalso
      have h1 : u.Nonempty := Finset.nonempty_iff_ne_empty.2 hu
      have h2 := Finset.card_pos.2 h1
      omega
  | succ fuel ih =>
    intro u chosen hcard h
    rw [greedyLoop_eq] at h
    by_cases hu : u = ∅
    · rw [if_pos hu] at h
      exact Option.noConfusion h
    · rw [if_neg hu] at h
      cases hsel : selectBest M t u with
      | mk ob g =>
        cases ob with
        | none =>
          obtain ⟨f0, hf0⟩ := Finset.nonempty_iff_ne_empty.2 hu
          refine ⟨f0, hf0, fun i hi => ?_⟩
          have hz := ((selectBest_spec M u t).1 (by rw [hsel])).2 i hi
          unfold uncoveredGain at hz
          rw [Finset.card_eq_zero] at hz
          by_contra hcon
          have h2 : matEntry M i f0 = true := by
            revert hcon
            cases matEntry M i f0 <;> simp
          have h3 : f0 ∈ u.filter fun f => matEntry M i f = true :=
            Finset.mem_filter.2 ⟨hf0, h2⟩
          rw [hz] at h3
          exact absurd h3 (Finset.not_mem_empty _)
        | some b =>
          rw [hsel] at h
          have hspec := (selectBest_spec M u t).2 b (by rw [hsel])
          obtain ⟨_, _, hgain, _, _⟩ := hspec
          have hcard' : (u.filter fun f => matEntry M b f = false).card ≤ fuel := by
            have := filter_false_card_lt hgain
            omega
          obtain ⟨f, hfmem, hcol⟩ := ih _ (chosen ++ [b]) hcard' h
          exact ⟨f, Finset.filter_subset _ _ hfmem, hcol⟩

/-! ### Set-cover claims -/

/-- C3: the exact set-cover solver enumerates subset sizes r = 1..t in
increasing order and the C(t, r) combinations at each size in
lexicographic order, returning the first covering combination at the
smallest size (no strictly smaller combination covers, and no
lexicographically earlier combination of the same size covers); it
returns the infeasible marker exactly when some fault column is
entirely zero. -/
theorem exact_min_cover_spec (M : List (List Bool)) (m : Nat)
    (hrows : ∀ row ∈ M, row.length = m) (ht : 0 < M.length) :
    (exact_min_set_cover M m = none
      ↔ ∃ f, f < m ∧ ∀ i, i < M.length → matEntry M i f = false)
    ∧ (∀ c, exact_min_set_cover M m = some c →
        c.Sublist (List.range M.length)
        ∧ 1 ≤ c.length ∧ c.length ≤ M.length
        ∧ unionVec M m c = List.replicate m true
        ∧ (∀ s, s.Sublist (List.range M.length) → s ≠ [] →
            s.length < c.length → unionVec M m s ≠ List.replicate m true)
        ∧ (∀ s ∈ combosOf c.length (List.range M.length),
            List.Lex (· < ·) s c → unionVec M m s ≠ List.replicate m true))
    ∧ (∀ r, List.Pairwise (List.Lex (· < ·)) (combosOf r (List.range M.length))) :=
  ⟨exact_none_iff hrows ht,
   fun _ hc => exact_some_props hc,
   fun r => combosOf_pairwise_lex _ r (List.pairwise_lt_range M.length)⟩

/-- Witness for `exact_min_cover_spec`: on the matrix with tests
T1 = [1,0], T2 = [0,1], the exact solver's result {T1, T2} covers both
faults. -/
theorem exact_min_cover_spec_witness :
    unionVec [[true, false], [false, true]] 2 [0, 1] = List.replicate 2 true
    ∧ 1 ≤ ([0, 1] : List Nat).length :=
  have h := (exact_min_cover_spec [[true, false], [false, true]] 2
    (by decide) (by decide)).2.1 [0, 1] (by decide)
  ⟨h.2.2.2.1, h.2.1⟩

/-- C4: the greedy solver's selection step picks the lowest-index test
of maximal positive gain over the currently uncovered faults (no
selection only when every test has zero gain); a successful run returns
a duplicate-free list of valid test indices whose union covers every
fault — never a partial solution — and the infeasible marker is
returned exactly when some fault column is entirely zero. -/
theorem greedy_cover_spec (M : List (List Bool)) (m : Nat)
    (hrows : ∀ row ∈ M, row.length = m) :
    (∀ u b, (selectBest M M.length u).1 = some b →
        b < M.length ∧ 0 < uncoveredGain M u b
        ∧ (∀ i, i < M.length → uncoveredGain M u i ≤ uncoveredGain M u b)
        ∧ (∀ j, j < b → uncoveredGain M u j < uncoveredGain M u b))
    ∧ (∀ u, (selectBest M M.length u).1 = none →
        ∀ i, i < M.length → uncoveredGain M u i = 0)
    ∧ (∀ c, greedy_set_cover M m = some c →
        c.Nodup ∧ (∀ i ∈ c, i < M.length)
        ∧ unionVec M m c = List.replicate m true)
    ∧ (greedy_set_cover M m = none
        ↔ ∃ f, f < m ∧ ∀ i, i < M.length → matEntry M i f = false) := by
  have hsome : ∀ c, greedy_set_cover M m = some c →
      c.Nodup ∧ (∀ i ∈ c, i < M.length)
      ∧ (∀ f, f < m → ∃ i ∈ c, matEntry M i f = true) := by
    intro c hc
    have h := greedyLoop_some_props M M.length m (Finset.range m) [] c
      (by simp) (by simp) (by simp) (by simp) hc
    exact ⟨h.1, h.2.1, fun f hf => h.2.2.1 f (Finset.mem_range.2 hf)⟩
  refine ⟨?_, ?_, ?_, ?_⟩
  · intro u b hb
    have h := (selectBest_spec M u M.length).2 b hb
    exact ⟨h.1, h.2.2.1, h.2.2.2.1, h.2.2.2.2⟩
  · intro u hn
    exact ((selectBest_spec M u M.length).1 hn).2
  · intro c hc
    obtain ⟨hnd, hbound, hcov⟩ := hsome c hc
    exact ⟨hnd, hbound, (unionVec_eq_ones_iff hrows hbound).2 hcov⟩
  · constructor
    · intro h
      obtain ⟨f, hfmem, hcol⟩ := greedyLoop_none_props M M.length m
        (Finset.range m) [] (by simp) h
      exact ⟨f, Finset.mem_range.1 hfmem, hcol⟩
    · rintro ⟨f, hf, hcol⟩
      cases hres : greedy_set_cover M m with
      | none => rfl
      | some c =>
        exfalso
        obtain ⟨_, hbound, hcov⟩ := hsome c hres
        obtain ⟨i, hi_mem, hientry⟩ := hcov f hf
        rw [hcol i (hbound i hi_mem)] at hientry
        cases hientry

/-- Witness for `greedy_cover_spec`: on the matrix with tests
T1 = [1,0], T2 = [0,1], the greedy result [0, 1] is duplicate-free,
uses valid indices, and covers both faults. -/
theorem greedy_cover_spec_witness :
    ([0, 1] : List Nat).Nodup
    ∧ (∀ i ∈ ([0, 1] : List Nat),
        i < ([[true, false], [false, true]] : List (List Bool)).length)
    ∧ unionVec [[true, false], [false, true]] 2 [0, 1] = List.replicate 2 true :=
  (greedy_cover_spec [[true, false], [false, true]] 2 (by decide)).2.2.1
    [0, 1] (by decide)

/-- C8: whenever neither solver returns the infeasible marker, the
greedy result is at least as large as the exact optimum and both
results' unions equal the all-ones vector. -/
theorem greedy_ge_exact (M : List (List Bool)) (m : Nat)
    (hrows : ∀ row ∈ M, row.length = m) (hm : 0 < m)
    (ce cg : List Nat)
    (he : exact_min_set_cover M m = some ce)
    (hg : greedy_set_cover M m = some cg) :
    ce.length ≤ cg.length
    ∧ unionVec M m ce = List.replicate m true
    ∧ unionVec M m cg = List.replicate m true := by
  obtain ⟨hesub, he1, helen, hecov, hemin, _⟩ := exact_some_props he
  obtain ⟨hgnd, hgbound0, hgcov_pt, _⟩ :=
    greedyLoop_some_props M M.length m (Finset.range m) [] cg
      (by simp) (by simp) (by simp) (by simp) hg
  have hgbound : ∀ i ∈ cg, i < M.length := hgbound0
  have hgcov : ∀ f, f < m → ∃ i ∈ cg, matEntry M i f = true :=
    fun f hf => hgcov_pt f (Finset.mem_range.2 hf)
  have hgunion : unionVec M m cg = List.replicate m true :=
    (unionVec_eq_ones_iff hrows hgbound).2 hgcov
  refine ⟨?_, hecov, hgunion⟩
  by_contra hcon
  push_neg at hcon
  have hperm : (List.insertionSort (· ≤ ·) cg).Perm cg :=
    List.perm_insertionSort _ _
  have hsnd : (List.insertionSort (· ≤ ·) cg).Nodup :=
    List.Nodup.perm hgnd hperm.symm
  have hsorted : List.Sorted (· ≤ ·) (List.insertionSort (· ≤ ·) cg) :=
    List.sorted_insertionSort _ _
  have hslt : List.Pairwise (· < ·) (List.insertionSort (· ≤ ·) cg) :=
    hsorted.lt_of_le hsnd
  have hsbound : ∀ x ∈ List.insertionSort (· ≤ ·) cg, x < M.length :=
    fun x hx => hgbound x (hperm.mem_iff.1 hx)
  have hssub : (List.insertionSort (· ≤ ·) cg).Sublist (List.range M.length) :=
    sorted_lt_sublist_range hslt hsbound
  have hslen : (List.insertionSort (· ≤ ·) cg).length = cg.length :=
    hperm.length_eq
  have hsne : List.insertionSort (· ≤ ·) cg ≠ [] := by
    intro hnil
    obtain ⟨i, hi_mem, _⟩ := hgcov 0 hm
    have hlen0 : cg.length = 0 := by
      rw [← hslen, hnil]
      rfl
    rw [List.length_eq_zero.1 hlen0] at hi_mem
    exact absurd hi_mem (List.not_mem_nil i)
  have hscov : unionVec M m (List.insertionSort (· ≤ ·) cg)
      = List.replicate m true := by
    rw [unionVec_eq_ones_iff hrows hsbound]
    intro f hf
    obtain ⟨i, hi_mem, hie⟩ := hgcov f hf
    exact ⟨i, hperm.mem_iff.2 hi_mem, hie⟩
  exact hemin _ hssub hsne (by omega) hscov

/-- Witness for `greedy_ge_exact` on the matrix with tests T1 = [1,0],
T2 = [0,1]: both solvers return {T1, T2} and both unions are all
ones. -/
theorem greedy_ge_exact_witness :
    ([0, 1] : List Nat).length ≤ ([0, 1] : List Nat).length
    ∧ unionVec [[true, false], [false, true]] 2 [0, 1] = List.replicate 2 true
    ∧ unionVec [[true, false], [false, true]] 2 [0, 1] = List.replicate 2 true :=
  greedy_ge_exact [[true, false], [false, true]] 2 (by decide) (by decide)
    [0, 1] [0, 1] (by decide) (by decide)
